import Mathlib

/-!
Shallow embedding of the llmsh shell (Rust) for specification checking.

The embedding covers:
* src/shell/command_parser.rs : Redirection, SimpleCommand, Pipeline and
  CommandParser::parse (a character loop with quote handling, pipes,
  redirections, background marker and token flushing);
* src/shell/executor.rs      : exit-code aggregation of Executor::execute
  and the foreground path of execute_simple_command, with OS process
  statuses modelled explicitly;
* src/shell/job_control.rs   : the job table, handle_sigchld and
  find_job_by_pid, with the list of pids reported by waitpid(-1, NULL,
  WNOHANG) passed in as data;
* src/shell/signal_handler.rs: the interrupt flag protocol of
  was_interrupted, with the atomic flag as explicit state;
* src/utils/path_utils.rs    : find_executable, with the file system
  abstracted as predicates.

Machine strings are Lean String / List Char; the scanner token is kept as
a List Char (a String in the source; the two are isomorphic and the list
form is what the character loop manipulates).
-/

/-- Unicode white space, mirroring Rust char::is_whitespace (the White_Space
property): 0x09-0x0D, space, NEL, NBSP, Ogham space, the 0x2000-0x200A run,
line and paragraph separators, narrow and medium spaces, ideographic space. -/
def rustWhitespace (c : Char) : Bool :=
  c == ' ' || c == '\t' || c == '\n' || c == '\x0b' || c == '\x0c' || c == '\r' ||
  c == '\x85' || c == '\xa0' || c == Char.ofNat 0x1680 ||
  (0x2000 ≤ c.toNat && c.toNat ≤ 0x200a) ||
  c == Char.ofNat 0x2028 || c == Char.ofNat 0x2029 || c == Char.ofNat 0x202f ||
  c == Char.ofNat 0x205f || c == Char.ofNat 0x3000

/-- src/shell/command_parser.rs: enum Redirection. -/
inductive Redirection where
  | Input (file : String)
  | Output (file : String)
  | Append (file : String)
  | ErrorOutput (file : String)
  | ErrorAppend (file : String)
  | Pipe
deriving DecidableEq, Repr

/-- src/shell/command_parser.rs: struct SimpleCommand. -/
structure SimpleCommand where
  program : String
  args : List String
  redirections : List Redirection
deriving DecidableEq, Repr

/-- src/shell/command_parser.rs: struct Pipeline. -/
structure Pipeline where
  commands : List SimpleCommand
  background : Bool
deriving DecidableEq, Repr

/-- The freshly reset current_command of CommandParser::parse. -/
def emptyCommand : SimpleCommand :=
  { program := "", args := [], redirections := [] }

/-- The mutable locals of CommandParser::parse: commands, current_command,
background, in_quotes, quote_char, current_token. -/
structure ParseState where
  commands : List SimpleCommand
  current : SimpleCommand
  background : Bool
  inQuotes : Bool
  quoteChar : Char
  token : List Char
deriving DecidableEq, Repr

/-- Initial values of the locals of CommandParser::parse. -/
def initState : ParseState :=
  { commands := []
    current := emptyCommand
    background := false
    inQuotes := false
    quoteChar := ' '
    token := [] }

/-- The token flush that parse repeats at pipes, redirections, whitespace and
end of input: a non-empty current_token becomes the program if the program is
still empty, otherwise an additional argument; an empty token does nothing. -/
def flushToken (cur : SimpleCommand) (tok : List Char) : SimpleCommand :=
  if tok = [] then cur
  else if cur.program = "" then { cur with program := String.mk tok }
  else { cur with args := cur.args ++ [String.mk tok] }

/-- The whitespace-skipping loop before a redirection filename; returns the
remaining characters and the last character consumed (for the one-character
lookback of the 2> forms). -/
def skipWs : List Char → Option Char → List Char × Option Char
  | [], p => ([], p)
  | c :: cs, p => if rustWhitespace c then skipWs cs (some c) else (c :: cs, p)

/-- A character that ends a redirection filename in parse. -/
def fnameStop (c : Char) : Bool :=
  rustWhitespace c || c == '|' || c == '<' || c == '>'

/-- The filename-reading loop of parse: a contiguous run of characters that
are not whitespace and not one of the operator characters. -/
def takeFilename : List Char → Option Char → List Char × List Char × Option Char
  | [], p => ([], [], p)
  | c :: cs, p =>
    if fnameStop c then ([], c :: cs, p)
    else
      let r := takeFilename cs (some c)
      (c :: r.1, r.2.1, r.2.2)

/-- Skip whitespace then read the filename, as parse does after each
redirection operator. -/
def readRedirTarget (cs : List Char) (p : Option Char) :
    String × List Char × Option Char :=
  let s := skipWs cs p
  let t := takeFilename s.1 s.2
  (String.mk t.1, t.2.1, t.2.2)

/-- Append a redirection to the current command of the state. -/
def addRedir (st : ParseState) (r : Redirection) : ParseState :=
  { st with current :=
      { st.current with redirections := st.current.redirections ++ [r] } }

/-- The pipe branch of parse: flush the token, append a Pipe redirection,
push the current command (unconditionally) and reset it. -/
def pipeFlush (st : ParseState) : ParseState :=
  let cur := flushToken st.current st.token
  let cur := { cur with redirections := cur.redirections ++ [Redirection.Pipe] }
  { st with
      commands := st.commands ++ [cur]
      current := emptyCommand
      token := [] }

/-- One iteration of the character loop of CommandParser::parse at character
c with remaining input rest; prev is the previous character of the raw input
(the chars-index-minus-one lookback). Returns either the continuation data
(remaining characters, new lookback, new state) or, for the final-position
ampersand, the state at the break. The branch order is that of the source:
quotes, in-quotes accumulation, pipe, redirections (with the greedy
double-angle check first, so an error-append never reaches its own branch),
final ampersand, whitespace, plain character. -/
def parseStep (c : Char) (rest : List Char) (prev : Option Char)
    (st : ParseState) : Sum (List Char × Option Char × ParseState) ParseState :=
  if (c == '"' || c == '\'') && (!st.inQuotes || st.quoteChar == c) then
    if st.inQuotes then
      Sum.inl (rest, some c, { st with inQuotes := false })
    else
      Sum.inl (rest, some c, { st with inQuotes := true, quoteChar := c })
  else if st.inQuotes then
    Sum.inl (rest, some c, { st with token := st.token ++ [c] })
  else if c == '|' then
    Sum.inl (rest, some c, pipeFlush st)
  else if c == '<' || c == '>' then
    let st1 := { st with current := flushToken st.current st.token, token := [] }
    if c == '>' && rest.head? == some '>' then
      let r := readRedirTarget rest.tail (some '>')
      Sum.inl (r.2.1, r.2.2, addRedir st1 (Redirection.Append r.1))
    else if prev == some '2' && c == '>' && rest.head? == some '>' then
      let r := readRedirTarget rest.tail (some '>')
      Sum.inl (r.2.1, r.2.2, addRedir st1 (Redirection.ErrorAppend r.1))
    else if prev == some '2' && c == '>' then
      let r := readRedirTarget rest (some c)
      Sum.inl (r.2.1, r.2.2, addRedir st1 (Redirection.ErrorOutput r.1))
    else if c == '>' then
      let r := readRedirTarget rest (some c)
      Sum.inl (r.2.1, r.2.2, addRedir st1 (Redirection.Output r.1))
    else
      let r := readRedirTarget rest (some c)
      Sum.inl (r.2.1, r.2.2, addRedir st1 (Redirection.Input r.1))
  else if c == '&' && rest.isEmpty then
    Sum.inr { st with background := true }
  else if rustWhitespace c then
    Sum.inl (rest, some c,
      { st with current := flushToken st.current st.token, token := [] })
  else
    Sum.inl (rest, some c, { st with token := st.token ++ [c] })

/-- The character loop of CommandParser::parse, fuelled: each iteration
consumes at least one character and one unit of fuel, so fuel equal to the
input length always suffices. -/
def parseLoop : Nat → List Char → Option Char → ParseState → ParseState
  | 0, _, _, st => st
  | _ + 1, [], _, st => st
  | fuel + 1, c :: rest, prev, st =>
    match parseStep c rest prev st with
    | Sum.inl (cs, p, st1) => parseLoop fuel cs p st1
    | Sum.inr st1 => st1

/-- Run the character loop with sufficient fuel. -/
def runP (cs : List Char) (prev : Option Char) (st : ParseState) : ParseState :=
  parseLoop cs.length cs prev st

/-- The epilogue of parse: flush the last token, then append the last command
only if its program is non-empty. -/
def parseFinalize (st : ParseState) : List SimpleCommand :=
  let cur := flushToken st.current st.token
  if cur.program = "" then st.commands else st.commands ++ [cur]

/-- CommandParser::parse. The Rust function returns Result but its only exit
is Ok, so the model returns the Pipeline directly. -/
def parse (input : String) : Pipeline :=
  let st := runP input.toList none initState
  { commands := parseFinalize st, background := st.background }

example : parse "ls -la" =
    Pipeline.mk [SimpleCommand.mk "ls" ["-la"] []] false := by decide

example : parse "ls -la | grep Cargo" =
    Pipeline.mk
      [SimpleCommand.mk "ls" ["-la"] [Redirection.Pipe],
       SimpleCommand.mk "grep" ["Cargo"] []] false := by decide

example : parse "sleep 10 &" =
    Pipeline.mk [SimpleCommand.mk "sleep" ["10"] []] true := by decide

example : parse "cat < input.txt > output.txt" =
    Pipeline.mk
      [SimpleCommand.mk "cat" []
        [Redirection.Input "input.txt", Redirection.Output "output.txt"]]
      false := by decide

example : parse "echo hello >> output.txt" =
    Pipeline.mk
      [SimpleCommand.mk "echo" ["hello"] [Redirection.Append "output.txt"]]
      false := by decide

/-! ## Executor (src/shell/executor.rs) -/

/-- The OS status of a terminated child process: either a normal exit with a
code, or termination by a signal (in which case ExitStatus::code() is None). -/
inductive OsStatus where
  | exited (code : Int)
  | signaled (sig : Nat)
deriving DecidableEq, Repr

/-- ExitStatus::success(): true exactly for a normal exit with code zero. -/
def statusSuccess : OsStatus → Bool
  | OsStatus.exited code => code == 0
  | OsStatus.signaled _ => false

/-- ExitStatus::code(): the exit code of a normal exit, none for a
signal-terminated process. -/
def statusCode : OsStatus → Option Int
  | OsStatus.exited code => some code
  | OsStatus.signaled _ => none

/-- The wait loop of Executor::execute (lines 64-74): iterate over the
children in pipeline order; whenever a wait result is not success, overwrite
the accumulated exit code with that child's code (1 if it has none). The
statuses are listed in pipeline (spawn) order, which is the order the loop
waits in; when a later stage finishes first its status is simply collected
later. -/
def aggregateExit (waits : List OsStatus) : Int :=
  waits.foldl (fun code s => if statusSuccess s then code else (statusCode s).getD 1) 0

/-- Executor::execute with the children's eventual OS statuses supplied in
pipeline order. Empty pipeline: 0. A single command without a Pipe
redirection goes through execute_simple_command: spawn-and-forget (code 0)
in background, otherwise the foreground status mapped by
status.code().unwrap_or(0). Any other pipeline uses the wait loop. -/
def executeM (p : Pipeline) (waits : List OsStatus) : Int :=
  match p.commands with
  | [] => 0
  | [cmd] =>
    if Redirection.Pipe ∈ cmd.redirections then aggregateExit waits
    else if p.background then 0
    else
      match waits with
      | s :: _ => (statusCode s).getD 0
      | [] => 0
  | _ :: _ :: _ => aggregateExit waits

/-- The exit code the specification describes for a multi-stage pipeline:
the code of the last stage, in pipeline order, whose status is not success
(with a signal-terminated stage contributing code 1), or 0 when every stage
succeeded. -/
def lastFailureCode (waits : List OsStatus) : Int :=
  match (waits.filter (fun s => !statusSuccess s)).getLast? with
  | some s => (statusCode s).getD 1
  | none => 0

/-! ## Job control (src/shell/job_control.rs) -/

/-- src/shell/job_control.rs: enum JobStatus. -/
inductive JobStatus where
  | Running
  | Stopped
  | Completed (code : Int)
  | Failed (code : Int)
deriving DecidableEq, Repr

/-- src/shell/job_control.rs: struct Job (start_time modelled as a plain
timestamp number). -/
structure Job where
  pid : Nat
  command : String
  status : JobStatus
  startTime : Nat
deriving DecidableEq, Repr

/-- The jobs table: job id to Job, as an association list. -/
def JobTable := List (Nat × Job)

/-- JobControl::find_job_by_pid: the id of a job whose pid matches. -/
def find_job_by_pid (jobs : JobTable) (pid : Nat) : Option Nat :=
  (List.find? (fun e => e.2.pid == pid) jobs).map (fun e => e.1)

/-- The jobs.get_mut(&job_id) update: set the status of the job with the
given id. -/
def setJobStatus (jobs : JobTable) (jobId : Nat) (s : JobStatus) : JobTable :=
  List.map (fun e => if e.1 == jobId then (e.1, { e.2 with status := s }) else e)
    jobs

/-- JobControl::handle_sigchld (lines 248-263). The loop drains
waitpid(-1, NULL, WNOHANG) until it reports 0 (no pending status change) or
-1; reaped lists the pids it reports, in order. The status pointer passed to
waitpid is null, so the child's actual exit status is never read: a matched
job's status is set to Completed(0) unconditionally; an unmatched pid leaves
the table unchanged. -/
def handle_sigchld (jobs : JobTable) (reaped : List Nat) : JobTable :=
  reaped.foldl
    (fun js pid =>
      match find_job_by_pid js pid with
      | some jobId => setJobStatus js jobId (JobStatus.Completed 0)
      | none => js)
    jobs

/-- JobControl::get_job_status. -/
def get_job_status (jobs : JobTable) (jobId : Nat) : Option JobStatus :=
  (List.find? (fun e => e.1 == jobId) jobs).map (fun e => e.2.status)

/-! ## Executable search (src/utils/path_utils.rs) -/

/-- The fixed directory list of find_executable. -/
def common_paths : List String :=
  ["/bin", "/usr/bin", "/usr/local/bin", "/sbin", "/usr/sbin"]

/-- Path::new(dir).join(command) for the directories used here. -/
def joinPath (dir command : String) : String := dir ++ "/" ++ command

/-- The directory-scanning loop of find_executable: the first dir whose
joined path exists and is executable. -/
def searchDirs (ex isx : String → Bool) (dirs : List String)
    (command : String) : Option String :=
  dirs.findSome? (fun dir =>
    let p := joinPath dir command
    if ex p && isx p then some p else none)

/-- path_utils::find_executable with the file system abstracted: ex tells
whether a path exists, isx whether it has an executable bit, pathVar is the
PATH variable when set. A command containing a separator is checked
directly and yields none when absent; otherwise the fixed directories, then
PATH, then the bare command as fallback. -/
def find_executable (ex isx : String → Bool) (pathVar : Option String)
    (command : String) : Option String :=
  if command.toList.contains '/' then
    if ex command && isx command then some command else none
  else
    match searchDirs ex isx common_paths command with
    | some p => some p
    | none =>
      match pathVar with
      | some pv =>
        match searchDirs ex isx (pv.splitOn ":") command with
        | some p => some p
        | none => some command
      | none => some command

/-! ## Interrupt flag (src/shell/signal_handler.rs) -/

/-- SignalHandler::was_interrupted: load the INTERRUPT_RECEIVED flag; when
it was set, store false; return the loaded value. The pair is
(returned value, flag state after the call). -/
def was_interrupted (flag : Bool) : Bool × Bool :=
  (flag, if flag then false else flag)

/-- SignalHandler::handle_sigint: the signal handler sets the flag. -/
def handle_sigint (_flag : Bool) : Bool := true

/-! ## Scanner infrastructure: each loop iteration consumes input, so fuel
equal to the remaining length always suffices. -/

theorem skipWs_length (cs : List Char) (p : Option Char) :
    (skipWs cs p).1.length ≤ cs.length := by
  induction cs generalizing p with
  | nil => simp [skipWs]
  | cons c t ih =>
    simp only [skipWs]
    split
    · exact Nat.le_trans (ih (some c)) (Nat.le_succ _)
    · simp

theorem takeFilename_length (cs : List Char) (p : Option Char) :
    (takeFilename cs p).2.1.length ≤ cs.length := by
  induction cs generalizing p with
  | nil => simp [takeFilename]
  | cons c t ih =>
    simp only [takeFilename]
    split
    · simp
    · exact Nat.le_trans (ih (some c)) (Nat.le_succ _)

theorem readRedirTarget_length (cs : List Char) (p : Option Char) :
    (readRedirTarget cs p).2.1.length ≤ cs.length := by
  unfold readRedirTarget
  exact Nat.le_trans (takeFilename_length _ _) (skipWs_length _ _)

theorem parseStep_inl_length (c : Char) (rest : List Char) (prev : Option Char)
    (st : ParseState) (cs : List Char) (p : Option Char) (st1 : ParseState)
    (h : parseStep c rest prev st = Sum.inl (cs, p, st1)) :
    cs.length ≤ rest.length := by
  have htail : rest.tail.length ≤ rest.length := by cases rest <;> simp
  unfold parseStep at h
  repeat' split at h
  all_goals try exact Sum.noConfusion h
  all_goals injection h with h2
  all_goals injection h2 with ha hbc
  all_goals subst ha
  all_goals
    first
    | exact Nat.le_refl _
    | exact Nat.le_trans (readRedirTarget_length _ _) htail
    | exact readRedirTarget_length _ _

theorem parseLoop_fuel (f1 : Nat) : ∀ (f2 : Nat) (cs : List Char)
    (prev : Option Char) (st : ParseState), cs.length ≤ f1 →
    cs.length ≤ f2 → parseLoop f1 cs prev st = parseLoop f2 cs prev st := by
  induction f1 with
  | zero =>
    intro f2 cs prev st h1 _
    have hcs : cs = [] := List.eq_nil_of_length_eq_zero (Nat.le_zero.mp h1)
    subst hcs
    cases f2 <;> rfl
  | succ f ih =>
    intro f2 cs prev st h1 h2
    cases cs with
    | nil => cases f2 <;> rfl
    | cons c rest =>
      cases f2 with
      | zero => simp at h2
      | succ f2x =>
        simp only [parseLoop]
        cases hs : parseStep c rest prev st with
        | inl t =>
          obtain ⟨cs1, p1, st1⟩ := t
          have hl := parseStep_inl_length c rest prev st cs1 p1 st1 hs
          have hr1 : rest.length ≤ f := Nat.succ_le_succ_iff.mp h1
          have hr2 : rest.length ≤ f2x := Nat.succ_le_succ_iff.mp h2
          exact ih f2x cs1 p1 st1 (Nat.le_trans hl hr1) (Nat.le_trans hl hr2)
        | inr st1 => rfl

theorem runP_nil (prev : Option Char) (st : ParseState) :
    runP [] prev st = st := rfl

theorem runP_cons (c : Char) (rest : List Char) (prev : Option Char)
    (st : ParseState) :
    runP (c :: rest) prev st =
      match parseStep c rest prev st with
      | Sum.inl (cs, p, st1) => runP cs p st1
      | Sum.inr st1 => st1 := by
  unfold runP
  simp only [List.length_cons, parseLoop]
  cases hs : parseStep c rest prev st with
  | inl t =>
    obtain ⟨cs1, p1, st1⟩ := t
    exact parseLoop_fuel rest.length cs1.length cs1 p1 st1
      (parseStep_inl_length c rest prev st cs1 p1 st1 hs) (Nat.le_refl _)
  | inr st1 => rfl

/-- Number of Pipe redirections of a redirection list. -/
def countPipes (rs : List Redirection) : Nat :=
  rs.countP (fun r => r == Redirection.Pipe)

theorem countPipes_append (a b : List Redirection) :
    countPipes (a ++ b) = countPipes a + countPipes b :=
  List.countP_append _ _ _

theorem flushToken_redirections (cur : SimpleCommand) (tok : List Char) :
    (flushToken cur tok).redirections = cur.redirections := by
  unfold flushToken
  repeat' split
  all_goals rfl

theorem mk_ne_empty (tok : List Char) (h : tok ≠ []) : String.mk tok ≠ "" :=
  fun hc => h (congrArg String.data hc)

theorem flushToken_program_ne (cur : SimpleCommand) (tok : List Char)
    (h : (flushToken cur tok).program = "") : cur.program = "" ∧ tok = [] := by
  unfold flushToken at h
  split at h
  · exact ⟨h, by assumption⟩
  · split at h
    · exact absurd h (mk_ne_empty tok (by assumption))
    · exact absurd h (by assumption)

theorem flushToken_args_mem (cur : SimpleCommand) (tok : List Char)
    (a : String) (h : a ∈ (flushToken cur tok).args) :
    a ∈ cur.args ∨ (tok ≠ [] ∧ a = String.mk tok) := by
  unfold flushToken at h
  split at h
  · exact Or.inl h
  · split at h
    · exact Or.inl h
    · simp only [List.mem_append, List.mem_singleton] at h
      cases h with
      | inl h => exact Or.inl h
      | inr h => exact Or.inr ⟨by assumption, h⟩

/-- The loop invariant of parse: every command already pushed carries exactly
one Pipe redirection (commands are pushed only in the pipe branch, which
appends the Pipe), the command being built carries none, and every argument
ever pushed is non-empty (the token flush pushes only non-empty tokens). -/
def StInv (st : ParseState) : Prop :=
  (∀ c ∈ st.commands, countPipes c.redirections = 1) ∧
  countPipes st.current.redirections = 0 ∧
  (∀ c ∈ st.commands, ∀ a ∈ c.args, a ≠ "") ∧
  (∀ a ∈ st.current.args, a ≠ "")

theorem stInv_init : StInv initState := by
  refine ⟨?_, rfl, ?_, ?_⟩ <;> simp [initState, emptyCommand]

theorem flushToken_inv (cur : SimpleCommand) (tok : List Char)
    (h0 : countPipes cur.redirections = 0) (ha : ∀ a ∈ cur.args, a ≠ "") :
    countPipes (flushToken cur tok).redirections = 0 ∧
      ∀ a ∈ (flushToken cur tok).args, a ≠ "" := by
  refine ⟨by rw [flushToken_redirections]; exact h0, ?_⟩
  intro a hmem
  rcases flushToken_args_mem cur tok a hmem with h | ⟨hne, rfl⟩
  · exact ha a h
  · exact mk_ne_empty tok hne

/-- A record update that keeps commands and current keeps the invariant. -/
theorem stInv_fields (st st1 : ParseState) (hcmd : st1.commands = st.commands)
    (hcur : st1.current = st.current) (hi : StInv st) : StInv st1 := by
  obtain ⟨hc1, hc0, ha1, ha0⟩ := hi
  exact ⟨by rw [hcmd]; exact hc1, by rw [hcur]; exact hc0,
    by rw [hcmd]; exact ha1, by rw [hcur]; exact ha0⟩

/-- The whitespace flush keeps the invariant. -/
theorem stInv_wsFlush (st : ParseState) (hi : StInv st) :
    StInv { st with current := flushToken st.current st.token, token := [] } := by
  obtain ⟨hc1, hc0, ha1, ha0⟩ := hi
  have hflush := flushToken_inv st.current st.token hc0 ha0
  exact ⟨hc1, hflush.1, ha1, hflush.2⟩

/-- The pipe branch keeps the invariant: the pushed command gets exactly
one Pipe appended to a pipe-free redirection list. -/
theorem stInv_pipeFlush (st : ParseState) (hi : StInv st) :
    StInv (pipeFlush st) := by
  obtain ⟨hc1, hc0, ha1, ha0⟩ := hi
  have hflush := flushToken_inv st.current st.token hc0 ha0
  refine ⟨?_, ?_, ?_, ?_⟩
  · intro cmd hmem
    simp only [pipeFlush, List.mem_append, List.mem_singleton] at hmem
    rcases hmem with h | rfl
    · exact hc1 cmd h
    · show countPipes (_ ++ [Redirection.Pipe]) = 1
      rw [countPipes_append, hflush.1]
      rfl
  · simp [pipeFlush, emptyCommand, countPipes]
  · intro cmd hmem
    simp only [pipeFlush, List.mem_append, List.mem_singleton] at hmem
    rcases hmem with h | rfl
    · exact ha1 cmd h
    · exact hflush.2
  · simp [pipeFlush, emptyCommand]

/-- A redirection branch keeps the invariant: flush the token, then append
a redirection that is not a Pipe. -/
theorem stInv_addRedir (st : ParseState) (r : Redirection)
    (hr : (r == Redirection.Pipe) = false) (hi : StInv st) :
    StInv (addRedir
      { st with current := flushToken st.current st.token, token := [] } r) := by
  obtain ⟨hc1, hc0, ha1, ha0⟩ := hi
  have hflush := flushToken_inv st.current st.token hc0 ha0
  refine ⟨hc1, ?_, ha1, ?_⟩
  · show countPipes (_ ++ [r]) = 0
    rw [countPipes_append, hflush.1]
    simp [countPipes, List.countP_cons, hr]
  · exact hflush.2

theorem parseStep_inv_inl (c : Char) (rest : List Char) (prev : Option Char)
    (st : ParseState) (cs : List Char) (p : Option Char) (st1 : ParseState)
    (h : parseStep c rest prev st = Sum.inl (cs, p, st1)) (hi : StInv st) :
    StInv st1 := by
  unfold parseStep at h
  repeat' split at h
  all_goals try exact Sum.noConfusion h
  all_goals injection h with h2
  all_goals injection h2 with ha hbc
  all_goals injection hbc with hb hcst
  all_goals subst hcst
  all_goals
    first
    | exact stInv_fields st _ rfl rfl hi
    | exact stInv_pipeFlush st hi
    | exact stInv_addRedir st _ rfl hi
    | exact stInv_wsFlush st hi

theorem parseStep_inv_inr (c : Char) (rest : List Char) (prev : Option Char)
    (st : ParseState) (st1 : ParseState)
    (h : parseStep c rest prev st = Sum.inr st1) (hi : StInv st) :
    StInv st1 := by
  unfold parseStep at h
  repeat' split at h
  all_goals try exact Sum.noConfusion h
  injection h with h2
  subst h2
  exact stInv_fields st _ rfl rfl hi

theorem runP_inv (n : Nat) : ∀ (cs : List Char) (prev : Option Char)
    (st : ParseState), cs.length ≤ n → StInv st → StInv (runP cs prev st) := by
  induction n with
  | zero =>
    intro cs prev st h1 hi
    have hcs : cs = [] := List.eq_nil_of_length_eq_zero (Nat.le_zero.mp h1)
    subst hcs
    exact hi
  | succ m ih =>
    intro cs prev st h1 hi
    cases cs with
    | nil => exact hi
    | cons c rest =>
      rw [runP_cons]
      cases hs : parseStep c rest prev st with
      | inl t =>
        obtain ⟨cs1, p1, st1⟩ := t
        have hl := parseStep_inl_length c rest prev st cs1 p1 st1 hs
        exact ih cs1 p1 st1 (Nat.le_trans hl (Nat.succ_le_succ_iff.mp h1))
          (parseStep_inv_inl c rest prev st cs1 p1 st1 hs hi)
      | inr st1 => exact parseStep_inv_inr c rest prev st st1 hs hi

theorem parse_inv (input : String) : StInv (runP input.toList none initState) :=
  runP_inv input.toList.length input.toList none initState (Nat.le_refl _)
    stInv_init

theorem countPipes_one_mem (rs : List Redirection)
    (h : countPipes rs = 1) : Redirection.Pipe ∈ rs := by
  have hpos : 0 < List.countP (fun r => r == Redirection.Pipe) rs := by
    rw [show List.countP (fun r => r == Redirection.Pipe) rs = countPipes rs
      from rfl, h]
    exact Nat.zero_lt_one
  obtain ⟨r, hmem, hr⟩ := List.countP_pos_iff.mp hpos
  rw [show r = Redirection.Pipe from eq_of_beq hr] at hmem
  exact hmem

/-- The epilogue of parse, with the conditional exposed. -/
theorem parseFinalize_eq (st : ParseState) :
    parseFinalize st =
      if (flushToken st.current st.token).program = "" then st.commands
      else st.commands ++ [flushToken st.current st.token] := rfl

/-! ## Claim theorems for the parser invariants -/

/-- C4 counterexample: the claim says a stage whose program is still empty
when flushed (for example on input beginning with a bare pipe) is silently
not appended, so the executor never sees an empty program. But the pipe
branch of parse pushes the current command unconditionally: parsing the
input consisting of a bare pipe followed by ls yields TWO stages and the
first has an empty program. -/
theorem claim_C4_counterexample :
    (parse "| ls").commands.map SimpleCommand.program = ["", "ls"] := by
  decide

/-- C4 (amended): empty input yields an empty pipeline, and every stage
that carries no Pipe redirection (in particular the stage appended by the
end-of-input flush, the only append that checks the program) has a
non-empty program. Stages appended by the pipe branch always carry exactly
one Pipe and may have an empty program. -/
theorem claim_C4 :
    (parse "").commands = [] ∧
    ∀ (input : String), ∀ c ∈ (parse input).commands,
      Redirection.Pipe ∉ c.redirections → c.program ≠ "" := by
  refine ⟨by decide, ?_⟩
  intro input c hmem hnp
  obtain ⟨hc1, hc0, ha1, ha0⟩ := parse_inv input
  have hpc : (parse input).commands =
      parseFinalize (runP input.toList none initState) := rfl
  rw [hpc, parseFinalize_eq] at hmem
  split at hmem
  · exact absurd (countPipes_one_mem _ (hc1 c hmem)) hnp
  · rcases List.mem_append.mp hmem with h | h
    · exact absurd (countPipes_one_mem _ (hc1 c h)) hnp
    · rw [List.mem_singleton.mp h]
      assumption

/-- C4 witness: the amended theorem applied to a concrete pipe-free stage. -/
theorem claim_C4_witness : ("ls" : String) ≠ "" :=
  claim_C4.2 "ls -la" (SimpleCommand.mk "ls" ["-la"] []) (by decide) (by decide)

/-- C5 counterexample: the claim says the last stage never has a Pipe
redirection, but on input ending in a bare pipe the last (only) stage is
pushed by the pipe branch and carries one. -/
theorem claim_C5_counterexample :
    (parse "ls |").commands.map SimpleCommand.redirections =
      [[Redirection.Pipe]] := by
  decide

/-- C5 (amended): in every parsed pipeline, every stage except the last has
exactly one Pipe redirection, and every stage (the last included) has at
most one; the last stage has none exactly when it was appended by the
end-of-input flush, but with trailing input ending in a bare pipe the last
stage keeps its Pipe. -/
theorem claim_C5 :
    ∀ (input : String),
      (∀ c ∈ (parse input).commands.dropLast, countPipes c.redirections = 1) ∧
      (∀ c ∈ (parse input).commands, countPipes c.redirections ≤ 1) := by
  intro input
  obtain ⟨hc1, hc0, ha1, ha0⟩ := parse_inv input
  have hpc : (parse input).commands =
      parseFinalize (runP input.toList none initState) := rfl
  rw [hpc, parseFinalize_eq]
  constructor
  · intro c hmem
    split at hmem
    · exact hc1 c ((List.dropLast_prefix _).subset hmem)
    · rw [List.dropLast_concat] at hmem
      exact hc1 c hmem
  · intro c hmem
    split at hmem
    · exact Nat.le_of_eq (hc1 c hmem)
    · rcases List.mem_append.mp hmem with h | h
      · exact Nat.le_of_eq (hc1 c h)
      · rw [List.mem_singleton.mp h, flushToken_redirections]
        exact Nat.le_of_lt (Nat.lt_succ_of_le (Nat.le_of_eq hc0))

/-- C5 witness: the amended theorem applied to a concrete two-stage
pipeline; the non-last stage carries exactly one Pipe. -/
theorem claim_C5_witness :
    countPipes (SimpleCommand.mk "a" [] [Redirection.Pipe]).redirections = 1 :=
  (claim_C5 "a | b").1 (SimpleCommand.mk "a" [] [Redirection.Pipe]) (by decide)

/-- C10 counterexample: the claim says every program in a parsed pipeline is
non-empty, but parsing a bare pipe yields one stage whose program is the
empty string. -/
theorem claim_C10_counterexample :
    (parse "|").commands.map SimpleCommand.program = [""] := by
  decide

/-- C10 (amended): an explicitly quoted empty string contributes no token
at all (it is dropped, not passed as an empty argument), and every argument
of every stage of every parsed pipeline is a non-empty string; programs,
however, can be empty for stages flushed by a bare pipe. -/
theorem claim_C10 :
    (parse "echo \"\"").commands = [SimpleCommand.mk "echo" [] []] ∧
    ∀ (input : String), ∀ c ∈ (parse input).commands, ∀ a ∈ c.args, a ≠ "" := by
  refine ⟨by decide, ?_⟩
  intro input c hmem
  obtain ⟨hc1, hc0, ha1, ha0⟩ := parse_inv input
  have hflush := flushToken_inv (runP input.toList none initState).current
    (runP input.toList none initState).token hc0 ha0
  have hpc : (parse input).commands =
      parseFinalize (runP input.toList none initState) := rfl
  rw [hpc, parseFinalize_eq] at hmem
  split at hmem
  · exact ha1 c hmem
  · rcases List.mem_append.mp hmem with h | h
    · exact ha1 c h
    · rw [List.mem_singleton.mp h]
      exact hflush.2

/-- C10 witness: the amended theorem applied to a concrete argument. -/
theorem claim_C10_witness : ("-la" : String) ≠ "" :=
  claim_C10.2 "ls -la" (SimpleCommand.mk "ls" ["-la"] []) (by decide) "-la"
    (by decide)

/-! ## Claim theorems for the executor -/

theorem aggregate_foldl (l : List OsStatus) : ∀ (a : Int),
    l.foldl (fun code s => if statusSuccess s then code
      else (statusCode s).getD 1) a =
      match (l.filter (fun s => !statusSuccess s)).getLast? with
      | some s => (statusCode s).getD 1
      | none => a := by
  induction l with
  | nil => intro a; rfl
  | cons s t ih =>
    intro a
    rw [List.foldl_cons, ih]
    by_cases hq : statusSuccess s = true
    · simp [List.filter_cons, hq]
    · cases hft : t.filter (fun s => !statusSuccess s) with
      | nil => simp [List.filter_cons, hq, hft]
      | cons h t2 =>
        simp only [List.filter_cons, hq, hft, Bool.not_false, if_true,
          Bool.not_eq_true, List.getLast?_cons_cons]
        cases hgl : (h :: t2).getLast? with
        | none =>
          exact absurd (List.getLast?_eq_none_iff.mp hgl)
            (List.cons_ne_nil h t2)
        | some u => rfl

/-- C1: for every multi-stage pipeline, once all stages have been waited on
(one OS status per stage, listed in pipeline order), execute returns the
code of the last stage in pipeline order whose status is not success (a
signal-terminated stage contributing unwrap_or's 1), and 0 when every stage
succeeded. The wait loop visits the children in pipeline (spawn) order and
reads each child's final status, so the result is a function of the
pipeline-ordered status list alone and is insensitive to the temporal order
in which the stages happen to finish. -/
theorem claim_C1 (p : Pipeline) (waits : List OsStatus)
    (h2 : 2 ≤ p.commands.length) (_hlen : waits.length = p.commands.length) :
    executeM p waits = lastFailureCode waits := by
  obtain ⟨cmds, bg⟩ := p
  cases cmds with
  | nil => simp at h2
  | cons c1 t =>
    cases t with
    | nil => simp at h2
    | cons c2 t2 =>
      show aggregateExit waits = lastFailureCode waits
      unfold aggregateExit lastFailureCode
      exact aggregate_foldl waits 0

/-- C1 witness: a concrete two-stage pipeline where the second stage fails
with code 3. -/
theorem claim_C1_witness :
    executeM
      (Pipeline.mk
        [SimpleCommand.mk "a" [] [Redirection.Pipe],
         SimpleCommand.mk "b" [] []] false)
      [OsStatus.exited 0, OsStatus.exited 3] =
      lastFailureCode [OsStatus.exited 0, OsStatus.exited 3] :=
  claim_C1 _ _ (by decide) (by decide)

/-- C2 (code bug): the claim (and the spec) says a single-stage foreground
child killed by a signal is reported as a non-zero failure code, but
execute_simple_command maps the foreground status with
status.code().unwrap_or(0): a signal-terminated status has no code, so the
shell reports 0 — success — even though the status is not a success. (The
multi-stage wait loop by contrast uses unwrap_or(1).) -/
theorem claim_C2_bug :
    executeM (Pipeline.mk [SimpleCommand.mk "cat" [] []] false)
      [OsStatus.signaled 9] = 0 ∧
    statusSuccess (OsStatus.signaled 9) = false := by decide

/-! ## Claim theorems for job control -/

/-- C3 counterexample: the claim says an OS-reported exit makes the matching
job Completed(code) on success and Failed(code) otherwise. Take a table with
one running job of pid 7 and let the OS report that pid (the child having in
fact exited with failure code 1): handle_sigchld passes a null status
pointer to waitpid and never reads the exit status, so the job becomes
Completed(0) — not Failed(1) — whatever the child's real status was. -/
theorem claim_C3_counterexample :
    get_job_status
      (handle_sigchld [(1, Job.mk 7 "cmd" JobStatus.Running 0)] [7]) 1 =
      some (JobStatus.Completed 0) ∧
    JobStatus.Completed 0 ≠ JobStatus.Failed 1 := by decide

/-- C3 (amended): when the reported pid matches a job in the table, that
job's status is set to Completed(0) unconditionally (the exit status is
discarded, the waitpid status pointer being null); when the pid matches no
job the table is unchanged; when no child has a pending status change (the
reap loop drains nothing) the call is a no-op on the table. -/
theorem claim_C3 (jobs : JobTable) (pid : Nat) :
    handle_sigchld jobs [] = jobs ∧
    (find_job_by_pid jobs pid = none → handle_sigchld jobs [pid] = jobs) ∧
    (∀ jobId, find_job_by_pid jobs pid = some jobId →
      handle_sigchld jobs [pid] =
        setJobStatus jobs jobId (JobStatus.Completed 0)) := by
  refine ⟨rfl, ?_, ?_⟩
  · intro h
    simp [handle_sigchld, h]
  · intro jobId h
    simp [handle_sigchld, h]

/-- C3 witness: the amended theorem applied to a concrete one-job table
whose pid is reported. -/
theorem claim_C3_witness :
    handle_sigchld [(1, Job.mk 7 "sleep" JobStatus.Running 0)] [7] =
      setJobStatus [(1, Job.mk 7 "sleep" JobStatus.Running 0)] 1
        (JobStatus.Completed 0) :=
  (claim_C3 [(1, Job.mk 7 "sleep" JobStatus.Running 0)] 7).2.2 1 (by decide)

/-! ## Claim theorem for the error-redirection scenario -/

/-- C6 (code bug): the claim — and the unit test test_error_redirection in
the source file — says parsing this input yields args exactly
["program.c"]. But when the scanner reaches the operator of 2> the
character 2 is already sitting in current_token, and the redirection branch
flushes it as an ordinary argument before the one-character lookback
recognizes the 2> form; the code therefore produces args
["program.c", "2"], contradicting its own test. The redirection itself is
ErrorOutput("errors.txt") as claimed. -/
theorem claim_C6_bug :
    parse "gcc program.c 2> errors.txt" =
      Pipeline.mk
        [SimpleCommand.mk "gcc" ["program.c", "2"]
          [Redirection.ErrorOutput "errors.txt"]] false := by decide

/-! ## Claim theorems for executable resolution -/

/-- C7 counterexample: the claim says find_executable returns Some for
every program name, including names containing a path separator. But for a
name containing a slash the function checks the path directly and returns
None when it does not exist as an executable file; with an empty file
system it returns None. -/
theorem claim_C7_counterexample :
    find_executable (fun _ => false) (fun _ => false) none "a/b" = none := by
  decide

/-- C7 (amended): for every program name WITHOUT a path separator,
find_executable always returns Some path — when the name is found in
neither the fixed standard directories nor the PATH directories it falls
back to returning the bare name unresolved rather than None. A name that
contains a separator is instead checked directly and yields None when it
does not resolve to an existing executable file. -/
theorem claim_C7 (ex isx : String → Bool) (pathVar : Option String)
    (command : String) (h : command.toList.contains '/' = false) :
    (find_executable ex isx pathVar command).isSome = true := by
  unfold find_executable
  simp only [h, Bool.false_eq_true, if_false]
  repeat' split
  all_goals rfl

/-- C7 witness: a name with no separator on an empty file system resolves
to itself. -/
theorem claim_C7_witness :
    (find_executable (fun _ => false) (fun _ => false) none "zzz").isSome =
      true :=
  claim_C7 (fun _ => false) (fun _ => false) none "zzz" (by decide)

/-! ## Claim theorem for the interrupt flag -/

/-- C8: was_interrupted returns the current value of the interrupt flag and
leaves the flag false afterwards, so with no intervening interrupt delivery
a second consecutive call always returns false — the two calls never both
return true (at-most-once consumption). -/
theorem claim_C8 : ∀ (flag : Bool),
    (was_interrupted flag).1 = flag ∧
    (was_interrupted flag).2 = false ∧
    (was_interrupted (was_interrupted flag).2).1 = false := by decide

/-! ## Round-trip reconstruction (claim C9) -/

/-- A character that the scanner treats as ordinary token material in every
position: not whitespace, not a pipe, not a redirection operator, not a
quote, not an ampersand. -/
def plainChar (c : Char) : Bool :=
  !(rustWhitespace c || c == '|' || c == '<' || c == '>' || c == '"' ||
    c == '\'' || c == '&')

/-- A token that survives reconstruction literally: non-empty and made of
plain characters only. -/
def plainToken (s : String) : Bool :=
  !s.toList.isEmpty && s.toList.all plainChar

/-- The (program, args) sequence of a pipeline, one pair per stage. -/
def stageTokens (p : Pipeline) : List (String × List String) :=
  p.commands.map (fun c => (c.program, c.args))

/-- Tokens joined by single spaces (the claim's args.join with spaces). -/
def sepTokens : List (List Char) → List Char
  | [] => []
  | [t] => t
  | t :: t2 :: ts => t ++ ' ' :: sepTokens (t2 :: ts)

/-- Stage token lists joined by space-pipe-space. -/
def stagesChars : List (List (List Char)) → List Char
  | [] => []
  | [s] => sepTokens s
  | s :: s2 :: ss => sepTokens s ++ ' ' :: '|' :: ' ' :: stagesChars (s2 :: ss)

/-- The token list of a stage: program then args. -/
def stageToks (c : SimpleCommand) : List (List Char) :=
  c.program.toList :: c.args.map String.toList

/-- The reconstruction the claim describes: each stage printed as program
followed by its args joined with single spaces, stages joined by
space-pipe-space. -/
def reconstruct (p : Pipeline) : String :=
  String.mk (stagesChars (p.commands.map stageToks))

/-- The command built by flushing a stage's tokens in order into a fresh
command. -/
def cmdOfToks (toks : List (List Char)) : SimpleCommand :=
  List.foldl flushToken emptyCommand toks

/-- Append the pipe marker, as the pipe branch does to a pushed stage. -/
def withPipe (c : SimpleCommand) : SimpleCommand :=
  { c with redirections := c.redirections ++ [Redirection.Pipe] }

/-- The stages the scanner produces from a reconstructed input: every stage
but the last is pushed by the pipe branch (gaining a Pipe), the last by the
end-of-input flush. -/
def expectedCmds : List (List (List Char)) → List SimpleCommand
  | [] => []
  | [s] => [cmdOfToks s]
  | s :: s2 :: ss => withPipe (cmdOfToks s) :: expectedCmds (s2 :: ss)

theorem parseStep_plain (c : Char) (rest : List Char) (prev : Option Char)
    (st : ParseState) (hc : plainChar c = true) (hq : st.inQuotes = false) :
    parseStep c rest prev st =
      Sum.inl (rest, some c, { st with token := st.token ++ [c] }) := by
  have hc2 := hc
  unfold plainChar at hc2
  simp only [Bool.not_eq_true', Bool.or_eq_false_iff] at hc2
  obtain ⟨⟨⟨⟨⟨⟨hws, hp⟩, hlt⟩, hgt⟩, hdq⟩, hsq⟩, hamp⟩ := hc2
  unfold parseStep
  rw [hq]
  simp [hws, hp, hlt, hgt, hdq, hsq, hamp]

theorem parseStep_space (rest : List Char) (prev : Option Char)
    (st : ParseState) (hq : st.inQuotes = false) :
    parseStep ' ' rest prev st =
      Sum.inl (rest, some ' ',
        { st with current := flushToken st.current st.token, token := [] }) := by
  unfold parseStep
  rw [hq]
  simp [show rustWhitespace ' ' = true from by decide]

theorem parseStep_pipeChar (rest : List Char) (prev : Option Char)
    (st : ParseState) (hq : st.inQuotes = false) :
    parseStep '|' rest prev st = Sum.inl (rest, some '|', pipeFlush st) := by
  unfold parseStep
  rw [hq]
  simp

theorem runP_plain (c : Char) (rest : List Char) (prev : Option Char)
    (st : ParseState) (hc : plainChar c = true) (hq : st.inQuotes = false) :
    runP (c :: rest) prev st =
      runP rest (some c) { st with token := st.token ++ [c] } := by
  rw [runP_cons, parseStep_plain c rest prev st hc hq]

theorem runP_space (rest : List Char) (prev : Option Char) (st : ParseState)
    (hq : st.inQuotes = false) :
    runP (' ' :: rest) prev st =
      runP rest (some ' ')
        { st with current := flushToken st.current st.token, token := [] } := by
  rw [runP_cons, parseStep_space rest prev st hq]

theorem runP_pipeChar (rest : List Char) (prev : Option Char)
    (st : ParseState) (hq : st.inQuotes = false) :
    runP ('|' :: rest) prev st = runP rest (some '|') (pipeFlush st) := by
  rw [runP_cons, parseStep_pipeChar rest prev st hq]

theorem runP_token (tok : List Char) : ∀ (rest : List Char) (prev : Option Char)
    (st : ParseState), tok.all plainChar = true → st.inQuotes = false →
    ∃ p2, runP (tok ++ rest) prev st =
      runP rest p2 { st with token := st.token ++ tok } := by
  induction tok with
  | nil =>
    intro rest prev st _ _
    exact ⟨prev, by simp⟩
  | cons c t ih =>
    intro rest prev st hall hq
    rw [List.all_cons, Bool.and_eq_true] at hall
    rw [List.cons_append, runP_plain c (t ++ rest) prev st hall.1 hq]
    obtain ⟨p2, hp2⟩ :=
      ih rest (some c) { st with token := st.token ++ [c] } hall.2 hq
    refine ⟨p2, ?_⟩
    rw [hp2]
    simp

theorem runP_sepTokens (toks : List (List Char)) : ∀ (rest : List Char)
    (prev : Option Char) (st : ParseState),
    (∀ t ∈ toks, t.all plainChar = true) → st.inQuotes = false →
    st.token = [] → toks ≠ [] →
    ∃ p2, runP (sepTokens toks ++ rest) prev st =
      runP rest p2
        { st with
            current := List.foldl flushToken st.current toks.dropLast
            token := toks.getLast?.getD [] } := by
  induction toks with
  | nil => intro rest prev st _ _ _ hne; exact absurd rfl hne
  | cons t ts ih =>
    intro rest prev st hall hq htok _
    cases ts with
    | nil =>
      obtain ⟨p2, hp2⟩ := runP_token t rest prev st (hall t (by simp)) hq
      refine ⟨p2, ?_⟩
      show runP (t ++ rest) prev st = _
      rw [hp2]
      simp [htok]
    | cons t2 ts2 =>
      obtain ⟨p2, hp2⟩ := runP_token t (' ' :: (sepTokens (t2 :: ts2) ++ rest))
        prev st (hall t (by simp)) hq
      refine ?_
      show ∃ p3, runP ((t ++ ' ' :: sepTokens (t2 :: ts2)) ++ rest) prev st = _
      rw [List.append_assoc, List.cons_append, hp2,
        runP_space (sepTokens (t2 :: ts2) ++ rest) p2
          { st with token := st.token ++ t } hq]
      have hargs : ∀ u ∈ t2 :: ts2, u.all plainChar = true := by
        intro u hu
        exact hall u (List.mem_cons_of_mem t hu)
      obtain ⟨p3, hp3⟩ := ih rest (some ' ')
        { st with
            current := flushToken st.current (st.token ++ t)
            token := [] }
        hargs hq rfl (by simp)
      refine ⟨p3, ?_⟩
      rw [hp3]
      simp only [htok, List.nil_append, List.dropLast_cons₂,
        List.getLast?_cons_cons, List.foldl_cons]

theorem flushToken_program_keep (cur : SimpleCommand) (tok : List Char)
    (h : cur.program ≠ "") : (flushToken cur tok).program = cur.program := by
  unfold flushToken
  by_cases h1 : tok = []
  · rw [if_pos h1]
  · rw [if_neg h1, if_neg h]

theorem foldl_flush_program (ts : List (List Char)) :
    ∀ (cur : SimpleCommand), cur.program ≠ "" →
    (List.foldl flushToken cur ts).program = cur.program := by
  induction ts with
  | nil => intro cur _; rfl
  | cons u us ih =>
    intro cur h
    rw [List.foldl_cons, ih (flushToken cur u)
      (by rw [flushToken_program_keep cur u h]; exact h),
      flushToken_program_keep cur u h]

theorem flushToken_nil (cur : SimpleCommand) : flushToken cur [] = cur := by
  unfold flushToken
  rw [if_pos rfl]

/-- pipeFlush with the intermediate lets written out. -/
theorem pipeFlush_eq (st : ParseState) :
    pipeFlush st =
      { st with
          commands :=
            st.commands ++ [withPipe (flushToken st.current st.token)]
          current := emptyCommand
          token := [] } := rfl

/-- Flushing the pending last token after flushing all earlier tokens is
the same as flushing the whole token list. -/
theorem foldl_flush_split (s : List (List Char)) (hne : s ≠ [])
    (cur : SimpleCommand) :
    flushToken (List.foldl flushToken cur s.dropLast) (s.getLast?.getD []) =
      List.foldl flushToken cur s := by
  cases hgl : s.getLast? with
  | none => exact absurd (List.getLast?_eq_none_iff.mp hgl) hne
  | some u =>
    have hsplit : s.dropLast ++ [u] = s :=
      List.dropLast_append_getLast? u (by rw [hgl]; rfl)
    show flushToken (List.foldl flushToken cur s.dropLast) u = _
    conv_rhs => rw [← hsplit]
    rw [List.foldl_append]
    rfl

theorem cmdOfToks_program_ne (t : List Char) (ts : List (List Char))
    (ht : t ≠ []) : (cmdOfToks (t :: ts)).program ≠ "" := by
  unfold cmdOfToks
  rw [List.foldl_cons]
  have hfl : (flushToken emptyCommand t).program = String.mk t := by
    unfold flushToken emptyCommand
    rw [if_neg ht, if_pos rfl]
  rw [foldl_flush_program ts (flushToken emptyCommand t)
    (by rw [hfl]; exact mk_ne_empty t ht), hfl]
  exact mk_ne_empty t ht

theorem runP_stages (stages : List (List (List Char))) : ∀ (st : ParseState)
    (prev : Option Char),
    (∀ s ∈ stages, s ≠ [] ∧ ∀ t ∈ s, t ≠ [] ∧ t.all plainChar = true) →
    st.inQuotes = false → st.token = [] → st.current = emptyCommand →
    parseFinalize (runP (stagesChars stages) prev st) =
      st.commands ++ expectedCmds stages := by
  induction stages with
  | nil =>
    intro st prev _ _ htok hcur
    show parseFinalize st = st.commands ++ expectedCmds []
    rw [parseFinalize_eq, htok, flushToken_nil, hcur]
    rw [if_pos (show emptyCommand.program = "" from rfl)]
    simp [expectedCmds]
  | cons s ss ih =>
    intro st prev hstage hq htok hcur
    have hs := hstage s (List.mem_cons_self s ss)
    cases ss with
    | nil =>
      obtain ⟨p2, hp2⟩ := runP_sepTokens s [] prev st
        (fun t ht => (hs.2 t ht).2) hq htok hs.1
      show parseFinalize (runP (sepTokens s) prev st) = _
      rw [← List.append_nil (sepTokens s), hp2, runP_nil, parseFinalize_eq]
      dsimp only
      rw [foldl_flush_split s hs.1 st.current, hcur]
      obtain ⟨t, ts, rfl⟩ : ∃ t ts, s = t :: ts := by
        cases s with
        | nil => exact absurd rfl hs.1
        | cons t ts => exact ⟨t, ts, rfl⟩
      rw [if_neg (show
          ¬((List.foldl flushToken emptyCommand (t :: ts)).program = "") from
        cmdOfToks_program_ne t ts ((hs.2 t (List.mem_cons_self t ts)).1))]
      rfl
    | cons s2 ss2 =>
      have hsub : ∀ s3 ∈ s2 :: ss2,
          s3 ≠ [] ∧ ∀ t ∈ s3, t ≠ [] ∧ t.all plainChar = true :=
        fun s3 h3 => hstage s3 (List.mem_cons_of_mem s h3)
      obtain ⟨p2, hp2⟩ := runP_sepTokens s
        (' ' :: '|' :: ' ' :: stagesChars (s2 :: ss2)) prev st
        (fun t ht => (hs.2 t ht).2) hq htok hs.1
      have hstep : runP (stagesChars (s :: s2 :: ss2)) prev st =
          runP (stagesChars (s2 :: ss2)) (some ' ')
            { st with
                commands := st.commands ++
                  [withPipe (List.foldl flushToken emptyCommand s)]
                current := emptyCommand
                token := [] } := by
        show runP (sepTokens s ++ ' ' :: '|' :: ' ' :: stagesChars (s2 :: ss2))
            prev st = _
        rw [hp2,
          runP_space ('|' :: ' ' :: stagesChars (s2 :: ss2)) p2
            { st with
                current := List.foldl flushToken st.current s.dropLast
                token := s.getLast?.getD [] } hq]
        dsimp only
        rw [foldl_flush_split s hs.1 st.current, hcur,
          runP_pipeChar (' ' :: stagesChars (s2 :: ss2)) (some ' ')
            { st with
                current := List.foldl flushToken emptyCommand s
                token := [] } hq,
          pipeFlush_eq]
        dsimp only
        simp only [flushToken_nil]
        rw [runP_space (stagesChars (s2 :: ss2)) (some '|')
            { st with
                commands := st.commands ++
                  [withPipe (List.foldl flushToken emptyCommand s)]
                current := emptyCommand
                token := [] } hq]
        dsimp only
        simp only [flushToken_nil]
      rw [hstep, ih
        { st with
            commands := st.commands ++
              [withPipe (List.foldl flushToken emptyCommand s)]
            current := emptyCommand
            token := [] }
        (some ' ') hsub hq rfl rfl]
      dsimp only
      show (st.commands ++ [withPipe (cmdOfToks s)]) ++ expectedCmds (s2 :: ss2)
        = st.commands ++
          (withPipe (cmdOfToks s) :: expectedCmds (s2 :: ss2))
      simp [List.append_assoc]

theorem mk_toList (s : String) : String.mk s.toList = s := rfl

theorem foldl_flush_args (ts : List (List Char)) : ∀ (p : String)
    (as : List String) (rs : List Redirection), p ≠ "" →
    (∀ u ∈ ts, u ≠ []) →
    List.foldl flushToken (SimpleCommand.mk p as rs) ts =
      SimpleCommand.mk p (as ++ ts.map String.mk) rs := by
  induction ts with
  | nil => intro p as rs _ _; simp
  | cons u us ih =>
    intro p as rs hp hu
    rw [List.foldl_cons]
    have h1 : flushToken (SimpleCommand.mk p as rs) u =
        SimpleCommand.mk p (as ++ [String.mk u]) rs := by
      unfold flushToken
      rw [if_neg (hu u (List.mem_cons_self u us)),
        if_neg (show ¬((SimpleCommand.mk p as rs).program = "") from hp)]
    rw [h1, ih p (as ++ [String.mk u]) rs hp
      (fun v hv => hu v (List.mem_cons_of_mem u hv))]
    simp

theorem cmdOfToks_fields (t : List Char) (ts : List (List Char)) (ht : t ≠ [])
    (hts : ∀ u ∈ ts, u ≠ []) :
    cmdOfToks (t :: ts) =
      SimpleCommand.mk (String.mk t) (ts.map String.mk) [] := by
  unfold cmdOfToks
  rw [List.foldl_cons]
  have h0 : flushToken emptyCommand t = SimpleCommand.mk (String.mk t) [] [] := by
    unfold flushToken emptyCommand
    rw [if_neg ht, if_pos rfl]
  rw [h0, foldl_flush_args ts (String.mk t) [] [] (mk_ne_empty t ht) hts]
  simp

theorem expectedCmds_tokens : ∀ (cmds : List SimpleCommand),
    (∀ c ∈ cmds, c.program.toList ≠ [] ∧ ∀ a ∈ c.args, a.toList ≠ []) →
    (expectedCmds (cmds.map stageToks)).map (fun c => (c.program, c.args)) =
      cmds.map (fun c => (c.program, c.args)) := by
  intro cmds
  induction cmds with
  | nil => intro _; rfl
  | cons c rest ih =>
    intro h
    have hc := h c (List.mem_cons_self c rest)
    have hargs : (c.args.map String.toList).map String.mk = c.args := by
      rw [List.map_map]
      have : ∀ a ∈ c.args,
          (String.mk ∘ String.toList) a = id a := fun a _ => mk_toList a
      rw [List.map_congr_left this, List.map_id]
    have hcmd : cmdOfToks (stageToks c) =
        SimpleCommand.mk c.program c.args [] := by
      unfold stageToks
      rw [cmdOfToks_fields c.program.toList (c.args.map String.toList) hc.1
        (fun u hu => by
          obtain ⟨a, ha, rfl⟩ := List.mem_map.mp hu
          exact hc.2 a ha)]
      rw [mk_toList, hargs]
    cases rest with
    | nil =>
      show [cmdOfToks (stageToks c)].map _ = [c].map _
      rw [hcmd]
      rfl
    | cons d rest2 =>
      show (withPipe (cmdOfToks (stageToks c)) ::
        expectedCmds ((d :: rest2).map stageToks)).map _ = _
      rw [List.map_cons, hcmd,
        ih (fun c3 h3 => h c3 (List.mem_cons_of_mem c h3))]
      rfl

theorem parse_commands (X : String) : (parse X).commands =
    parseFinalize (runP X.toList none initState) := rfl

theorem reconstruct_toList (p : Pipeline) : (reconstruct p).toList =
    stagesChars (p.commands.map stageToks) := rfl

/-- C9 counterexample: the claim quantifies over every input whose parse has
no redirections and no background marker. Take the input echo followed by a
quoted two-word argument: its parse is a single stage with one argument
containing a space, no redirections, background false. Reconstruction
yields the unquoted text, whose parse splits the argument in two — the
(program, args) sequence is NOT reproduced. -/
theorem claim_C9_counterexample :
    (parse "echo \"a b\"").background = false ∧
    ((parse "echo \"a b\"").commands.all
      (fun c => c.redirections.isEmpty)) = true ∧
    stageTokens (parse (reconstruct (parse "echo \"a b\""))) ≠
      stageTokens (parse "echo \"a b\"") := by decide

/-- C9 (amended): the round trip holds once every token of the parse result
is reconstruction-safe: for every input whose parse result has background
false, only Pipe redirections, and whose stage programs and arguments are
all non-empty and made of plain characters (no whitespace, no pipe, no
redirection operator, no quote, no ampersand), re-parsing the
reconstruction (each stage as program and args joined by single spaces,
stages joined by space-pipe-space) yields the same (program, args)
sequence per stage. Tokens that came from quoted text containing spaces or
operator characters break the round trip, as the counterexample shows. -/
theorem claim_C9 (input : String)
    (_hbg : (parse input).background = false)
    (_hnr : ∀ c ∈ (parse input).commands, ∀ r ∈ c.redirections,
      r = Redirection.Pipe)
    (hpl : ∀ c ∈ (parse input).commands,
      plainToken c.program = true ∧ ∀ a ∈ c.args, plainToken a = true) :
    stageTokens (parse (reconstruct (parse input))) =
      stageTokens (parse input) := by
  have hplsplit : ∀ (s : String), plainToken s = true →
      s.toList ≠ [] ∧ s.toList.all plainChar = true := by
    intro s h
    unfold plainToken at h
    rw [Bool.and_eq_true] at h
    exact ⟨by simpa using h.1, h.2⟩
  have hstages : ∀ s ∈ (parse input).commands.map stageToks,
      s ≠ [] ∧ ∀ t ∈ s, t ≠ [] ∧ t.all plainChar = true := by
    intro s hsmem
    obtain ⟨c, hcmem, rfl⟩ := List.mem_map.mp hsmem
    refine ⟨by simp [stageToks], ?_⟩
    intro t htmem
    rcases List.mem_cons.mp htmem with rfl | hmem
    · exact hplsplit c.program (hpl c hcmem).1
    · obtain ⟨a, hamem, rfl⟩ := List.mem_map.mp hmem
      exact hplsplit a ((hpl c hcmem).2 a hamem)
  have hmain := runP_stages ((parse input).commands.map stageToks) initState
    none hstages rfl rfl rfl
  unfold stageTokens
  rw [parse_commands (reconstruct (parse input)),
    reconstruct_toList (parse input), hmain,
    show initState.commands = ([] : List SimpleCommand) from rfl,
    List.nil_append]
  exact expectedCmds_tokens (parse input).commands
    (fun c hc => ⟨(hplsplit c.program (hpl c hc).1).1,
      fun a ha => (hplsplit a ((hpl c hc).2 a ha)).1⟩)

/-- C9 witness: a concrete two-stage pipeline of plain tokens whose
reconstruction re-parses to the same (program, args) sequence. -/
theorem claim_C9_witness :
    stageTokens (parse (reconstruct (parse "echo hi | cat"))) =
      stageTokens (parse "echo hi | cat") :=
  claim_C9 "echo hi | cat" (by decide) (by decide) (by decide)
